import Mathlib

/-!
Verification development for the p5.book page/document engine
(source: p5.book.js). JavaScript numbers are modelled as rationals,
JS strings as lists of characters, page rasters as pixel functions,
and fallible operations as Except values. Each definition mirrors a
function or code path in the source file; theorems settle the frozen
specification claims against these definitions.
-/

/-! ### Unit converter (source lines 12-20, 131-160, 43-61) -/

/-- The recognized unit tokens, mirroring the UNITS list. -/
def UNITS : List String := ["in", "cm", "mm", "px", "pt"]

/-- Millimeters per unit, mirroring the MM_PER_UNIT table: a lookup that
is none for unrecognized tokens. -/
def mmPerUnitQ : String → Option ℚ
  | "in" => some (254 / 10)
  | "cm" => some 10
  | "mm" => some 1
  | "pt" => some ((254 / 10) / 72)
  | "px" => some ((254 / 10) / 96)
  | _ => none

/-- The defaulted lookup mirroring the source expression
MM_PER_UNIT[u] with a 25.4 fallback for an absent key. -/
def mmPerUnitD (u : String) : ℚ := (mmPerUnitQ u).getD (254 / 10)

/-- The bleed amount stored by setBleed (lines 137-139): convert the
given amount from srcUnit to millimeters, then into the book unit. -/
def setBleedConvert (amount : ℚ) (srcUnit bookUnit : String) : ℚ :=
  (amount * mmPerUnitD srcUnit) / mmPerUnitD bookUnit

/-- Constructor resolution of the unitOrFilename argument in the numeric
format branch (lines 54-60): a recognized token becomes the unit, any
other string becomes the filename with the unit defaulting to inches. -/
def resolveUnitFilename (unitOrFilename : Option String)
    (filenameArg : Option String) : String × String :=
  match unitOrFilename with
  | none => ("in", "book.pdf")
  | some tok =>
    if tok ∈ UNITS then (tok, filenameArg.getD "book.pdf")
    else ("in", tok)

/-! ### Page/document state (constructor lines 87-98, addPage 199-276,
setBleed 131-160, setSpread 117-126, setDPI 101-110, finish 740-745) -/

/-- Error taxonomy for the phase-checked setters; the source throws a
plain Error whose message says the setter must be called before
addPage, which the spec calls InvalidPhaseError. -/
inductive BookError where
  | invalidPhase : BookError
deriving DecidableEq, Repr

/-- The mutable document state of a Book instance: the page counter,
the optional page-count target, the count of stored raw canvases, how
many times the completion routine (noLoop plus viewer) has run, whether
the draw loop is still running, and the fixed configuration. -/
structure Book where
  page : Nat
  totalPages : Option Nat
  pagesStored : Nat
  viewerShown : Nat
  looping : Bool
  bleed : ℚ
  unit : String
  printMarks : Bool
  spread : Bool
  saddleStitch : Bool
  dpi : Option ℚ
deriving DecidableEq, Repr

/-- A freshly constructed book with the given unit and target count
(constructor lines 87-98): no pages, bleed 0, marks off, loop running. -/
def mkBook (unit : String) (totalPages : Option Nat) : Book :=
  { page := 0, totalPages := totalPages, pagesStored := 0,
    viewerShown := 0, looping := true, bleed := 0, unit := unit,
    printMarks := false, spread := false, saddleStitch := false,
    dpi := none }

/-- addPage (lines 199-276): unconditionally appends the captured page,
increments the counter, and, whenever a target is set and the new
counter has reached it, stops the loop and shows the viewer. The
source performs no completeness check and can never fail here. -/
def addPage (bk : Book) : Book :=
  let p := bk.page + 1
  let complete := match bk.totalPages with
    | some t => decide (t ≤ p)
    | none => false
  { bk with
    page := p
    pagesStored := bk.pagesStored + 1
    viewerShown := bk.viewerShown + (if complete then 1 else 0)
    looping := bk.looping && !complete }

/-- finish (lines 740-745): stops the loop and shows the viewer
unconditionally, regardless of whether it already ran. -/
def finish (bk : Book) : Book :=
  { bk with looping := false, viewerShown := bk.viewerShown + 1 }

/-- setBleed (lines 131-160): fails while any page is captured;
otherwise converts the amount from the source unit (defaulting to the
book unit) and enables print marks. -/
def setBleed (bk : Book) (amount : ℚ) (srcUnit : Option String) :
    Except BookError Book :=
  if 0 < bk.page then .error .invalidPhase
  else
    .ok { bk with
      bleed := setBleedConvert amount (srcUnit.getD bk.unit) bk.unit
      printMarks := true }

/-- setSpread (lines 117-126): fails while any page is captured. -/
def setSpread (bk : Book) (enabled : Bool) : Except BookError Book :=
  if 0 < bk.page then .error .invalidPhase
  else .ok { bk with spread := enabled }

/-- setDPI (lines 101-110): fails while any page is captured. -/
def setDPI (bk : Book) (dpi : ℚ) : Except BookError Book :=
  if 0 < bk.page then .error .invalidPhase
  else .ok { bk with dpi := some dpi }

/-- setSaddleStitch (lines 112-115): no phase check in the source. -/
def setSaddleStitch (bk : Book) (enabled : Bool) : Book :=
  { bk with saddleStitch := enabled }

/-! ### Imposition engine (lines 362-447, 469-510, 747-782) -/

/-- The inner loop of _buildSpreadPDF (line 428): for i from 1 in steps
of 2 while i < n - 1, emit the pair (i, i+1). Written with explicit
fuel so the recursion is structural; fuel n is always enough since i
grows by 2 each step. -/
def spreadInnerFuel : Nat → Nat → Nat → List (Nat × Option Nat)
  | 0, _, _ => []
  | fuel + 1, n, i =>
    if i < n - 1 then (i, some (i + 1)) :: spreadInnerFuel fuel n (i + 2)
    else []

/-- _buildSpreadPDF pair construction (lines 419-431): cover solo,
interior consecutive pairs, back cover solo; fails when n < 2 or when
n - 2 is odd. -/
def buildSpreadPairs (n : Nat) : Except String (List (Nat × Option Nat)) :=
  if n < 2 then .error "spread requires at least 2 pages"
  else if (n - 2) % 2 ≠ 0 then
    .error "spread requires an even total page count"
  else .ok ((0, none) :: spreadInnerFuel n n 1 ++ [(n - 1, none)])

/-- _buildSaddleStitchPDF pair order (lines 442-445): for k below n/2,
the pair is (n-1-k, k) for even k and (k, n-1-k) for odd k. -/
def saddlePairs (n : Nat) : List (Nat × Nat) :=
  (List.range (n / 2)).map
    (fun k => if k % 2 = 0 then (n - 1 - k, k) else (k, n - 1 - k))

/-- _buildSaddleStitchPDF (lines 433-447): fails unless the page count
is divisible by 4, otherwise builds the saddle pair order. -/
def buildSaddleStitchPairs (n : Nat) : Except String (List (Nat × Nat)) :=
  if n % 4 = 0 then .ok (saddlePairs n)
  else .error "saddle stitch requires a page count divisible by 4"

/-- Outcome of saveSaddleStitch (lines 762-782): aborted with an alert
when there are no pages, aborted with an alert naming the stored count
and the suggested rounded-up count when not divisible by 4, otherwise
the built pair order is saved. -/
inductive SaddleResult where
  | saved : List (Nat × Nat) → SaddleResult
  | noPages : SaddleResult
  | invalidCount : Nat → Nat → SaddleResult
deriving DecidableEq, Repr

/-- saveSaddleStitch (lines 762-782). The alert for an invalid count
suggests Math.ceil(n/4)*4 pages, which is (n+3)/4*4 in natural
division. When the guard passes, the build of buildSaddleStitchPairs
cannot fail, so the pairs are saved. -/
def saveSaddleStitch (n : Nat) : SaddleResult :=
  if n = 0 then .noPages
  else if n % 4 ≠ 0 then .invalidCount n (((n + 3) / 4) * 4)
  else .saved (saddlePairs n)

/-- What save() exports (lines 747-760), together with whether an error
was logged: with spread mode on, a failed spread build is caught,
logged to the console, and the plain per-page PDF is saved instead. -/
inductive ExportKind where
  | spreadPDF : List (Nat × Option Nat) → ExportKind
  | plainPDF : ExportKind
deriving DecidableEq, Repr

/-- save (lines 747-760): the export made and whether the catch branch
(console.error followed by the plain save) ran. -/
def savePDF (spreadEnabled : Bool) (n : Nat) : ExportKind × Bool :=
  if spreadEnabled then
    match buildSpreadPairs n with
    | .ok ps => (.spreadPDF ps, false)
    | .error _ => (.plainPDF, true)
  else (.plainPDF, false)

/-- The layout the viewer builds (lines 469-510): spread items only when
spread mode is on and the precondition holds, otherwise one item per
raw page. -/
inductive ViewLayout where
  | perPage : Nat → ViewLayout
  | spreadView : Nat → ViewLayout
deriving DecidableEq, Repr

/-- _buildViewItems validity switch (line 474): isValidSpread requires
spread mode, at least 2 pages, and an even n - 2; otherwise the viewer
silently falls back to per-page items. -/
def buildViewItemsLayout (spread : Bool) (n : Nat) : ViewLayout :=
  if spread ∧ 2 ≤ n ∧ (n - 2) % 2 = 0 then .spreadView n else .perPage n

/-! ### Print mark geometry (_drawPrintMarksOn, lines 278-310) -/

/-- An axis-aligned line segment from (x1, y1) to (x2, y2) in document
units. Every segment the source draws is a solid hairline; there is no
dash style anywhere in the mark code. -/
structure Seg where
  x1 : ℚ
  y1 : ℚ
  x2 : ℚ
  y2 : ℚ
deriving DecidableEq, Repr

/-- _drawPrintMarksOn (lines 278-310): returns nothing when the bleed
is not positive; otherwise the eight solid crop-mark segments, two per
trim corner, each running inward from the page edge and stopping gap
(1 millimeter in document units) before the trim line. -/
def drawPrintMarksOn (trimW trimH b : ℚ) (unit : String) : List Seg :=
  if b ≤ 0 then []
  else
    let u := mmPerUnitD unit
    let gap := 1 / u
    let x0 := b
    let y0 := b
    let x1 := b + trimW
    let y1 := b + trimH
    let pw := 2 * b + trimW
    let ph := 2 * b + trimH
    [⟨0, y0, x0 - gap, y0⟩, ⟨x0, 0, x0, y0 - gap⟩,
     ⟨pw, y0, x1 + gap, y0⟩, ⟨x1, 0, x1, y0 - gap⟩,
     ⟨0, y1, x0 - gap, y1⟩, ⟨x0, ph, x0, y1 + gap⟩,
     ⟨pw, y1, x1 + gap, y1⟩, ⟨x1, ph, x1, y1 + gap⟩]

/-- A point (x, y) lies on an axis-aligned segment. -/
def pointOnSeg (s : Seg) (x y : ℚ) : Prop :=
  (s.y1 = s.y2 ∧ y = s.y1 ∧ (min s.x1 s.x2 ≤ x ∧ x ≤ max s.x1 s.x2)) ∨
  (s.x1 = s.x2 ∧ x = s.x1 ∧ (min s.y1 s.y2 ≤ y ∧ y ≤ max s.y1 s.y2))

/-- The open interior of the trim content area on a page of bleed b. -/
def trimInterior (trimW trimH b x y : ℚ) : Prop :=
  b < x ∧ x < b + trimW ∧ b < y ∧ y < b + trimH

/-! ### Bleed compositor (addPage body, lines 206-253) -/

/-- A raster: pixel dimensions plus a pixel function, where none is the
blank (fully transparent) state a fresh canvas initializes to. -/
structure Raster where
  w : Nat
  h : Nat
  px : Nat → Nat → Option Nat

/-- Math.round on a nonnegative JS number, producing a pixel count. -/
def jsRound (q : ℚ) : Nat := (⌊q + 1 / 2⌋).toNat

/-- Width of the bleed-inclusive output raster (line 212): the main
canvas width scaled by (trim + 2 bleed) over trim, rounded. -/
def compW (mainR : Raster) (trimW b : ℚ) : Nat :=
  jsRound ((mainR.w : ℚ) * (trimW + 2 * b) / trimW)

/-- Height of the bleed-inclusive output raster (line 215). -/
def compH (mainR : Raster) (trimH b : ℚ) : Nat :=
  jsRound ((mainR.h : ℚ) * (trimH + 2 * b) / trimH)

/-- Horizontal offset of the trim canvas in the output (line 226):
proportional to physical bleed over physical trim width. -/
def compOffX (mainR : Raster) (trimW b : ℚ) : Nat :=
  jsRound ((mainR.w : ℚ) * (b / trimW))

/-- Vertical offset of the trim canvas in the output (line 227). -/
def compOffY (mainR : Raster) (trimH b : ℚ) : Nat :=
  jsRound ((mainR.h : ℚ) * (b / trimH))

/-- Nearest-sample scaling used to model drawImage stretching a source
raster over a destination of the given size. -/
def scaleSample (src : Raster) (dstW dstH x y : Nat) : Option Nat :=
  src.px (x * src.w / dstW) (y * src.h / dstH)

/-- The page compositing in addPage for b > 0 (lines 210-247): clear
the off-screen canvas, draw the bleed buffer scaled to fill it, then
draw the main (trim) canvas unscaled at the proportional offset.
Source-over drawing is modelled on Option pixels: an opaque source
pixel wins, a transparent one leaves the layer below visible. -/
def compositePage (mainR bleedR : Raster) (trimW trimH b : ℚ) : Raster :=
  let W := compW mainR trimW b
  let H := compH mainR trimH b
  let offX := compOffX mainR trimW b
  let offY := compOffY mainR trimH b
  { w := W, h := H,
    px := fun x y =>
      if x < W ∧ y < H then
        match (if offX ≤ x ∧ x < offX + mainR.w ∧ offY ≤ y ∧ y < offY + mainR.h
               then mainR.px (x - offX) (y - offY) else none) with
        | some c => some c
        | none => scaleSample bleedR W H x y
      else none }

/-! ### Text flow engine (_wrapText lines 792-812, _getLeading 815-818,
textBox 820-841, columnNum 784-790). JS strings are modelled as lists
of characters and the injected p.textWidth measurement as a function
from character lists to rationals. -/

/-- Helper for splitting: returns the group currently being built (the
characters before the first separator) and the remaining groups. -/
def splitAux (sep : Char) : List Char → List Char × List (List Char)
  | [] => ([], [])
  | c :: rest =>
    let r := splitAux sep rest
    if c = sep then ([], r.1 :: r.2) else (c :: r.1, r.2)

/-- JS String.prototype.split with a single-character separator: the
result is never empty, and splitting the empty string gives one empty
group. -/
def splitOnChar (sep : Char) (s : List Char) : List (List Char) :=
  (splitAux sep s).1 :: (splitAux sep s).2

/-- JS Array.prototype.join with a single-character separator. -/
def joinChar (sep : Char) : List (List Char) → List Char
  | [] => []
  | [l] => l
  | l :: l2 :: ls => l ++ sep :: joinChar sep (l2 :: ls)

/-- The candidate line of _wrapText (line 803): the word alone when the
line is empty, otherwise line, space, word. -/
def candidate (line word : List Char) : List Char :=
  if line = [] then word else line ++ ' ' :: word

/-- The word loop of _wrapText (lines 801-809): commit the line and
start over with the word exactly when the line is nonempty and the
candidate measures wider than the column width; after the last word a
nonempty line is committed. -/
def wrapWords (m : List Char → ℚ) (maxW : ℚ) :
    List (List Char) → List Char → List (List Char)
  | [], line => if line = [] then [] else [line]
  | w :: ws, line =>
    if line ≠ [] ∧ maxW < m (candidate line w) then
      line :: wrapWords m maxW ws w
    else wrapWords m maxW ws (candidate line w)

/-- The words of a paragraph: split on spaces, skipping empty words
(the continue on line 802). -/
def wordsOf (para : List Char) : List (List Char) :=
  (splitOnChar ' ' para).filter (fun w => w ≠ [])

/-- Wrapping of one nonempty paragraph (lines 800-809). -/
def wrapPara (m : List Char → ℚ) (maxW : ℚ) (para : List Char) :
    List (List Char) :=
  wrapWords m maxW (wordsOf para) []

/-- The paragraph loop of _wrapText (lines 795-810): an empty paragraph
contributes one blank output line, any other paragraph its wrapped
lines. -/
def wrapParas (m : List Char → ℚ) (maxW : ℚ) :
    List (List Char) → List (List Char)
  | [] => []
  | p :: ps =>
    (if p = [] then [[]] else wrapPara m maxW p) ++ wrapParas m maxW ps

/-- _wrapText (lines 792-812): split the input on hard line breaks and
wrap each paragraph. -/
def wrapText (m : List Char → ℚ) (maxW : ℚ) (s : List Char) :
    List (List Char) :=
  wrapParas m maxW (splitOnChar '\n' s)

/-- The column width of textBox (line 825). -/
def colWidth (w gutter : ℚ) (cols : Nat) : ℚ :=
  (w - gutter * ((cols : ℚ) - 1)) / (cols : ℚ)

/-- maxLines of textBox (line 828): Math.max(1, floor((h - ascent) /
leading) + 1). -/
def maxLinesFor (h ascent leading : ℚ) : Nat :=
  ((⌊(h - ascent) / leading⌋ + 1) ⊔ 1).toNat

/-- The inner placement loop of textBox (lines 834-837): advance the
line index up to rows times while it is below the total. -/
def innerCount (total : Nat) : Nat → Nat → Nat
  | idx, 0 => idx
  | idx, r + 1 => if idx < total then innerCount total (idx + 1) r else idx

/-- The outer column loop of textBox (lines 832-838). -/
def outerCount (total rows : Nat) : Nat → Nat → Nat
  | idx, 0 => idx
  | idx, c + 1 =>
    if idx < total then outerCount total rows (innerCount total idx rows) c
    else idx

/-- textBox (lines 820-841), reduced to its line bookkeeping: an empty
input returns immediately; otherwise the text is wrapped at the column
width, the nested loops place a prefix of the lines, and the rest are
joined with hard line breaks as overflow. Returns the placed lines and
the overflow string. -/
def textBoxModel (m : List Char → ℚ) (s : List Char) (w h : ℚ)
    (cols : Nat) (gutter ascent leading : ℚ) :
    List (List Char) × List Char :=
  if s = [] then ([], [])
  else
    let lines := wrapText m (colWidth w gutter cols) s
    let placed := outerCount lines.length (maxLinesFor h ascent leading) 0 cols
    (lines.take placed, joinChar '\n' (lines.drop placed))

/-- k rounds of feeding the overflow of one textBox call into the next
call with the same box parameters, collecting all placed lines and the
final overflow. -/
def flowIter (m : List Char → ℚ) (w h : ℚ) (cols : Nat)
    (gutter ascent leading : ℚ) : Nat → List Char → List (List Char) × List Char
  | 0, s => ([], s)
  | k + 1, s =>
    let r := textBoxModel m s w h cols gutter ascent leading
    let rest := flowIter m w h cols gutter ascent leading k r.2
    (r.1 ++ rest.1, rest.2)

/-- The line sequence a single textBox call with unbounded height would
place: nothing for empty input (the early return on line 821),
otherwise every wrapped line. -/
def unboundedLines (m : List Char → ℚ) (maxW : ℚ) (s : List Char) :
    List (List Char) :=
  if s = [] then [] else wrapText m maxW s

/-- The length measurement used for concrete examples: one unit per
character. -/
def lenMeasure (l : List Char) : ℚ := (l.length : ℚ)

/-! ### Supporting lemmas for the imposition engine -/

/-- Closed form of the spread inner loop: starting at i with n equal to
i + 2c + 1 and at least c units of fuel, the loop emits exactly the c
consecutive pairs starting at i. -/
theorem spreadInnerFuel_closed : ∀ (c fuel i n : Nat),
    i + 2 * c + 1 = n → c ≤ fuel →
    spreadInnerFuel fuel n i =
      (List.range c).map (fun j => (i + 2 * j, some (i + 2 * j + 1))) := by
  intro c
  induction c with
  | zero =>
    intro fuel i n hn _
    cases fuel with
    | zero => simp [spreadInnerFuel]
    | succ f =>
      have h : ¬ i < n - 1 := by omega
      simp [spreadInnerFuel, h]
  | succ c ih =>
    intro fuel i n hn hf
    cases fuel with
    | zero => omega
    | succ f =>
      have hlt : i < n - 1 := by omega
      have step := ih f (i + 2) n (by omega) (by omega)
      rw [spreadInnerFuel, if_pos hlt, step, List.range_succ_eq_map,
        List.map_cons, List.map_map]
      refine congrArg₂ List.cons (by simp) ?_
      refine List.map_congr_left ?_
      intro j _
      simp only [Function.comp]
      refine Prod.ext ?_ ?_ <;> simp <;> omega

/-- C1: for every page count n divisible by 4, the saddle-stitch build
produces exactly the pairs (n-1-k, k) for even k and (k, n-1-k) for odd
k, for k from 0 to n/2 - 1, with n = 8 giving [(7,0),(1,6),(5,2),(3,4)];
for any other n the build fails and saveSaddleStitch aborts with an
alert naming the stored count and the required rounding
Math.ceil(n/4)*4 = (n+3)/4*4, building nothing. -/
theorem saddle_stitch_claim : ∀ n : Nat,
    (n % 4 = 0 → buildSaddleStitchPairs n = .ok ((List.range (n / 2)).map
      (fun k => if k % 2 = 0 then (n - 1 - k, k) else (k, n - 1 - k)))) ∧
    (n % 4 ≠ 0 → (∀ ps, buildSaddleStitchPairs n ≠ .ok ps) ∧
      saveSaddleStitch n = .invalidCount n (((n + 3) / 4) * 4)) ∧
    buildSaddleStitchPairs 8 = .ok [(7, 0), (1, 6), (5, 2), (3, 4)] := by
  intro n
  refine ⟨?_, ?_, by rfl⟩
  · intro h
    simp [buildSaddleStitchPairs, h, saddlePairs]
  · intro h
    have h0 : n ≠ 0 := by omega
    exact ⟨fun ps => by simp [buildSaddleStitchPairs, h],
      by simp [saveSaddleStitch, h0, h]⟩

/-- Witness for C1 at n = 12 (divisible by 4) and n = 10 (not). -/
theorem saddle_stitch_claim_witness :
    buildSaddleStitchPairs 12 =
      .ok [(11, 0), (1, 10), (9, 2), (3, 8), (7, 4), (5, 6)] ∧
    saveSaddleStitch 10 = .invalidCount 10 12 :=
  ⟨(saddle_stitch_claim 12).1 (by decide),
   ((saddle_stitch_claim 10).2.1 (by decide)).2⟩

/-- C2: for every page count n with n at least 2 and n - 2 even, the
reader-spread build yields the cover solo, then the consecutive
interior pairs (1,2), (3,4), ... covering indices 1 through n - 2,
then the back cover solo, so n = 6 gives
[(0,none),(1,2),(3,4),(5,none)]; any n violating the precondition
fails with the page-count error. -/
theorem reader_spread_claim : ∀ n : Nat,
    (2 ≤ n → (n - 2) % 2 = 0 →
      buildSpreadPairs n = .ok ((0, none) ::
        ((List.range ((n - 2) / 2)).map
          (fun j => (2 * j + 1, some (2 * j + 2)))) ++ [(n - 1, none)])) ∧
    (¬(2 ≤ n ∧ (n - 2) % 2 = 0) → ∀ ps, buildSpreadPairs n ≠ .ok ps) ∧
    buildSpreadPairs 6 = .ok [(0, none), (1, some 2), (3, some 4), (5, none)] := by
  intro n
  refine ⟨?_, ?_, by rfl⟩
  · intro h2 heven
    have hinner := spreadInnerFuel_closed ((n - 2) / 2) n 1 n (by omega) (by omega)
    have hmap : (List.range ((n - 2) / 2)).map
        (fun j => ((1 + 2 * j : Nat), some (1 + 2 * j + 1))) =
        (List.range ((n - 2) / 2)).map
        (fun j => ((2 * j + 1 : Nat), some (2 * j + 2))) := by
      refine List.map_congr_left ?_
      intro j _
      refine Prod.ext ?_ ?_ <;> simp <;> omega
    unfold buildSpreadPairs
    rw [if_neg (by omega), if_neg (by simp [heven]), hinner, hmap]
  · intro hbad ps
    unfold buildSpreadPairs
    by_cases h1 : n < 2
    · rw [if_pos h1]; simp
    · have h2 : (n - 2) % 2 ≠ 0 := by omega
      rw [if_neg h1, if_pos h2]; simp

/-- Witness for C2 at n = 4 and n = 3. -/
theorem reader_spread_claim_witness :
    buildSpreadPairs 4 = .ok [(0, none), (1, some 2), (3, none)] ∧
    buildSpreadPairs 3 ≠ .ok [(0, none), (1, some 2), (2, none)] :=
  ⟨(reader_spread_claim 4).1 (by omega) (by decide),
   (reader_spread_claim 3).2.1 (by omega) _⟩

/-! ### Claims about the document state machine and configuration -/

/-- A one-page book used for the completion-state counterexample. -/
def bkOne : Book := mkBook "in" (some 1)

/-- C7 counterexample: the claim says that once the page counter has
reached the configured total, any further addPage call fails with an
AlreadyComplete error and the completion signal fires exactly once.
On a book with totalPages = 1 the first addPage completes the
document, yet the second addPage neither fails nor is refused: it
appends a second raw canvas, advances the counter to 2, and runs the
completion routine (noLoop plus viewer) a second time, so the signal
has fired twice. -/
theorem already_complete_cex :
    (addPage (addPage bkOne)).pagesStored = 2 ∧
    (addPage (addPage bkOne)).page = 2 ∧
    (addPage (addPage bkOne)).viewerShown = 2 := by
  refine ⟨rfl, rfl, rfl⟩

/-- C7 amended: addPage performs no completeness check and cannot fail;
every call made at or past the configured total still appends a page
and increments the counter, and re-runs the completion routine
(noLoop plus showing the viewer) on each such call, so the completion
signal can fire more than once per document. -/
theorem already_complete_amended : ∀ (bk : Book) (t : Nat),
    bk.totalPages = some t → t ≤ bk.page + 1 →
    (addPage bk).page = bk.page + 1 ∧
    (addPage bk).pagesStored = bk.pagesStored + 1 ∧
    (addPage bk).viewerShown = bk.viewerShown + 1 ∧
    (addPage bk).looping = false := by
  intro bk t ht hle
  simp [addPage, ht, hle]

/-- Witness for the amended C7: the second addPage on the completed
one-page book appends, increments, and re-fires the viewer. -/
theorem already_complete_amended_witness :
    (addPage (addPage bkOne)).page = (addPage bkOne).page + 1 ∧
    (addPage (addPage bkOne)).pagesStored = (addPage bkOne).pagesStored + 1 ∧
    (addPage (addPage bkOne)).viewerShown = (addPage bkOne).viewerShown + 1 ∧
    (addPage (addPage bkOne)).looping = false :=
  already_complete_amended (addPage bkOne) 1 rfl (by decide)

/-- C10: once any page has been captured, setBleed, setSpread and
setDPI all fail with the invalid-phase error before touching any
state, so the configuration is left unchanged; the source has no
setter at all for the target page count, so that part of the claim
holds vacuously. -/
theorem setters_phase_claim : ∀ (bk : Book) (a : ℚ) (u : Option String)
    (e : Bool) (d : ℚ), 0 < bk.page →
    setBleed bk a u = .error .invalidPhase ∧
    setSpread bk e = .error .invalidPhase ∧
    setDPI bk d = .error .invalidPhase := by
  intro bk a u e d hp
  refine ⟨?_, ?_, ?_⟩ <;> simp [setBleed, setSpread, setDPI, hp]

/-- Witness for C10: calling setBleed after one addPage fails. -/
theorem setters_phase_claim_witness :
    0 < (addPage (mkBook "mm" (some 10))).page ∧
    setBleed (addPage (mkBook "mm" (some 10))) 3 none = .error .invalidPhase :=
  ⟨by decide,
   (setters_phase_claim (addPage (mkBook "mm" (some 10))) 3 none true 300
     (by decide)).1⟩

/-- C8 counterexample: the claim says no export or display path ever
substitutes a different document ordering for a failed spread or
saddle-stitch build. With spread mode on and 3 stored pages the
spread precondition fails, yet save() catches the error, logs it, and
exports the plain per-page PDF instead, and the viewer silently falls
back to per-page view items. -/
theorem imposition_fallback_cex :
    savePDF true 3 = (.plainPDF, true) ∧
    buildViewItemsLayout true 3 = .perPage 3 := by
  refine ⟨rfl, rfl⟩

/-- C8 amended: a reader-spread failure inside save() is reported (the
catch branch logs it) but then silently corrected by exporting the
plain per-page PDF, and the viewer silently falls back to per-page
items whenever the spread precondition fails; only the saddle-stitch
export path aborts without substituting another ordering. -/
theorem imposition_fallback_amended : ∀ n : Nat,
    (¬(2 ≤ n ∧ (n - 2) % 2 = 0) →
      savePDF true n = (.plainPDF, true) ∧
      buildViewItemsLayout true n = .perPage n) ∧
    (n % 4 ≠ 0 → saveSaddleStitch n = .invalidCount n (((n + 3) / 4) * 4)) ∧
    (n = 0 → saveSaddleStitch n = .noPages) := by
  intro n
  refine ⟨?_, ?_, ?_⟩
  · intro hbad
    constructor
    · unfold savePDF buildSpreadPairs
      by_cases h1 : n < 2
      · rw [if_pos rfl, if_pos h1]
      · have h2 : (n - 2) % 2 ≠ 0 := by omega
        rw [if_pos rfl, if_neg h1, if_pos h2]
    · simp only [buildViewItemsLayout]
      rw [if_neg (fun hcon => hbad hcon.2)]
  · intro h
    have h0 : n ≠ 0 := by omega
    simp [saveSaddleStitch, h0, h]
  · intro h
    simp [saveSaddleStitch, h]

/-- Witness for the amended C8 at n = 3 and n = 10. -/
theorem imposition_fallback_amended_witness :
    savePDF true 3 = (.plainPDF, true) ∧
    saveSaddleStitch 10 = .invalidCount 10 12 :=
  ⟨((imposition_fallback_amended 3).1 (by omega)).1,
   (imposition_fallback_amended 10).2.1 (by decide)⟩

/-- C9 counterexample: the claim says any unit token outside the
recognized set fails with UnknownUnit and is never silently mapped to
a fixed default ratio. Instead, converting a bleed amount with the
unrecognized token furlong silently uses the 25.4 fallback (the inch
ratio) and yields exactly the same value as the token in, and the
constructor reinterprets the unrecognized token as a filename with the
unit defaulting to inches; no failure occurs anywhere. -/
theorem unknown_unit_cex :
    setBleedConvert 1 "furlong" "in" = 1 ∧
    setBleedConvert 1 "furlong" "in" = setBleedConvert 1 "in" "in" ∧
    resolveUnitFilename (some "furlong") none = ("in", "furlong") := by
  have h1 : mmPerUnitD "furlong" = 254 / 10 := by simp [mmPerUnitD, mmPerUnitQ]
  have h2 : mmPerUnitD "in" = 254 / 10 := by simp [mmPerUnitD, mmPerUnitQ]
  refine ⟨?_, ?_, rfl⟩
  · rw [setBleedConvert, h1, h2]; norm_num
  · rw [setBleedConvert, setBleedConvert, h1, h2]

/-- C9 amended: no operation rejects an unrecognized unit token. The
MM_PER_UNIT lookup falls back to the fixed ratio 25.4 (the inch
ratio), so setBleed silently converts with it, and the constructor
treats any token outside the recognized set as a filename while
defaulting the unit to inches. -/
theorem unknown_unit_amended : ∀ (u bu : String) (a : ℚ),
    mmPerUnitQ u = none →
    mmPerUnitD u = 254 / 10 ∧
    setBleedConvert a u bu = (a * (254 / 10)) / mmPerUnitD bu ∧
    resolveUnitFilename (some u) none = ("in", u) := by
  intro u bu a h
  have hd : mmPerUnitD u = 254 / 10 := by simp [mmPerUnitD, h]
  have hmem : u ∉ UNITS := by
    intro hm
    have : mmPerUnitQ u ≠ none := by
      simp only [UNITS, List.mem_cons, List.mem_singleton] at hm
      rcases hm with rfl | rfl | rfl | rfl | rfl | hfalse
      · simp [mmPerUnitQ]
      · simp [mmPerUnitQ]
      · simp [mmPerUnitQ]
      · simp [mmPerUnitQ]
      · simp [mmPerUnitQ]
      · simp at hfalse
    exact this h
  refine ⟨hd, by rw [setBleedConvert, hd], ?_⟩
  simp [resolveUnitFilename, hmem]

/-- Witness for the amended C9 with the token furlong. -/
theorem unknown_unit_amended_witness :
    mmPerUnitD "furlong" = 254 / 10 ∧
    setBleedConvert 2 "furlong" "mm" = (2 * (254 / 10)) / mmPerUnitD "mm" ∧
    resolveUnitFilename (some "furlong") none = ("in", "furlong") :=
  unknown_unit_amended "furlong" "mm" 2 rfl

/-! ### Claim about the print mark geometry -/

/-- C3 counterexample: the claim requires, for any bleed b at least 0
with marks enabled, solid trim marks whose arms start 1mm outside the
trim boundary and extend 4mm further, plus dashed bleed-edge marks
exactly when b is positive. On a 10 by 10 millimeter trim page the
code instead draws nothing at all when b = 0, and at b = 2 it draws
exactly eight solid segments, each running from the page edge to 1mm
short of the trim line, so every arm has length b minus 1mm = 1mm
rather than 4mm, every segment lies inside the bleed zone, and no
dashed bleed-boundary marks exist anywhere. -/
theorem print_marks_cex :
    drawPrintMarksOn 10 10 0 "mm" = [] ∧
    drawPrintMarksOn 10 10 2 "mm" =
      [⟨0, 2, 1, 2⟩, ⟨2, 0, 2, 1⟩, ⟨14, 2, 13, 2⟩, ⟨12, 0, 12, 1⟩,
       ⟨0, 12, 1, 12⟩, ⟨2, 14, 2, 13⟩, ⟨14, 12, 13, 12⟩, ⟨12, 14, 12, 13⟩] := by
  have h1 : mmPerUnitD "mm" = 1 := by simp [mmPerUnitD, mmPerUnitQ]
  constructor
  · rw [drawPrintMarksOn, if_pos (by norm_num)]
  · rw [drawPrintMarksOn, if_neg (by norm_num)]
    simp only [h1]
    norm_num

/-- C3 amended: marks are drawn only when the bleed is positive, in
which case they are exactly eight solid segments, two per trim
corner, each running from the page (outer bleed) edge toward the trim
corner and stopping gap = 1mm (converted to the document unit, that
is 1 / mmPerUnit) before the trim boundary; there are no dashed
bleed-edge marks, and no segment reaches the open interior of the
trim content area. -/
theorem print_marks_amended : ∀ (trimW trimH b : ℚ) (unit : String),
    (b ≤ 0 → drawPrintMarksOn trimW trimH b unit = []) ∧
    (0 < b →
      drawPrintMarksOn trimW trimH b unit =
        [⟨0, b, b - 1 / mmPerUnitD unit, b⟩,
         ⟨b, 0, b, b - 1 / mmPerUnitD unit⟩,
         ⟨2 * b + trimW, b, b + trimW + 1 / mmPerUnitD unit, b⟩,
         ⟨b + trimW, 0, b + trimW, b - 1 / mmPerUnitD unit⟩,
         ⟨0, b + trimH, b - 1 / mmPerUnitD unit, b + trimH⟩,
         ⟨b, 2 * b + trimH, b, b + trimH + 1 / mmPerUnitD unit⟩,
         ⟨2 * b + trimW, b + trimH, b + trimW + 1 / mmPerUnitD unit, b + trimH⟩,
         ⟨b + trimW, 2 * b + trimH, b + trimW, b + trimH + 1 / mmPerUnitD unit⟩] ∧
      ∀ s ∈ drawPrintMarksOn trimW trimH b unit, ∀ x y : ℚ,
        pointOnSeg s x y → ¬ trimInterior trimW trimH b x y) := by
  intro trimW trimH b unit
  constructor
  · intro hb
    rw [drawPrintMarksOn, if_pos hb]
  · intro hb
    have hlist : drawPrintMarksOn trimW trimH b unit =
        [⟨0, b, b - 1 / mmPerUnitD unit, b⟩,
         ⟨b, 0, b, b - 1 / mmPerUnitD unit⟩,
         ⟨2 * b + trimW, b, b + trimW + 1 / mmPerUnitD unit, b⟩,
         ⟨b + trimW, 0, b + trimW, b - 1 / mmPerUnitD unit⟩,
         ⟨0, b + trimH, b - 1 / mmPerUnitD unit, b + trimH⟩,
         ⟨b, 2 * b + trimH, b, b + trimH + 1 / mmPerUnitD unit⟩,
         ⟨2 * b + trimW, b + trimH, b + trimW + 1 / mmPerUnitD unit, b + trimH⟩,
         ⟨b + trimW, 2 * b + trimH, b + trimW, b + trimH + 1 / mmPerUnitD unit⟩] := by
      rw [drawPrintMarksOn, if_neg (not_le.mpr hb)]
    refine ⟨hlist, ?_⟩
    intro s hs x y hp hint
    rw [hlist] at hs
    obtain ⟨h1, h2, h3, h4⟩ := hint
    simp only [List.mem_cons, List.not_mem_nil, or_false] at hs
    rcases hs with rfl | rfl | rfl | rfl | rfl | rfl | rfl | rfl <;>
      rcases hp with ⟨_, hy, hx1, hx2⟩ | ⟨_, hx, hy1, hy2⟩ <;>
      simp only [Seg.x1, Seg.x2, Seg.y1, Seg.y2] at * <;>
      rcases le_or_lt ((1 : ℚ) / mmPerUnitD unit) 0 with hg | hg <;>
      simp only [le_max_iff, min_le_iff, max_le_iff, le_min_iff] at * <;>
      linarith [h1, h2, h3, h4]

/-- Witness for the amended C3 on a 10 by 10 page with 2mm bleed. -/
theorem print_marks_amended_witness :
    drawPrintMarksOn 10 10 2 "mm" =
      [⟨0, 2, 2 - 1 / mmPerUnitD "mm", 2⟩,
       ⟨2, 0, 2, 2 - 1 / mmPerUnitD "mm"⟩,
       ⟨2 * 2 + 10, 2, 2 + 10 + 1 / mmPerUnitD "mm", 2⟩,
       ⟨2 + 10, 0, 2 + 10, 2 - 1 / mmPerUnitD "mm"⟩,
       ⟨0, 2 + 10, 2 - 1 / mmPerUnitD "mm", 2 + 10⟩,
       ⟨2, 2 * 2 + 10, 2, 2 + 10 + 1 / mmPerUnitD "mm"⟩,
       ⟨2 * 2 + 10, 2 + 10, 2 + 10 + 1 / mmPerUnitD "mm", 2 + 10⟩,
       ⟨2 + 10, 2 * 2 + 10, 2 + 10, 2 + 10 + 1 / mmPerUnitD "mm"⟩] :=
  ((print_marks_amended 10 10 2 "mm").2 (by norm_num)).1

/-! ### Claim about the bleed compositor -/

/-- Rounding commutes with adding a natural number to a nonnegative
quantity. -/
theorem jsRound_nat_add (n : Nat) (q : ℚ) (hq : 0 ≤ q) :
    jsRound ((n : ℚ) + q) = n + jsRound q := by
  unfold jsRound
  have h : (n : ℚ) + q + 1 / 2 = q + 1 / 2 + (n : ℤ) := by push_cast; ring
  have hnn : 0 ≤ ⌊q + 1 / 2⌋ := Int.floor_nonneg.mpr (by linarith)
  rw [h, Int.floor_add_int]
  omega

/-- Rounding is monotone. -/
theorem jsRound_mono {p q : ℚ} (h : p ≤ q) : jsRound p ≤ jsRound q := by
  unfold jsRound
  have := Int.floor_le_floor (show p + 1 / 2 ≤ q + 1 / 2 by linarith)
  omega

/-- The trim placement fits inside the composited raster horizontally. -/
theorem compOffX_add_le (mainR : Raster) (trimW b : ℚ) (htw : 0 < trimW)
    (hb : 0 ≤ b) : compOffX mainR trimW b + mainR.w ≤ compW mainR trimW b := by
  unfold compOffX compW
  have hEq : (mainR.w : ℚ) * (trimW + 2 * b) / trimW =
      (mainR.w : ℚ) + 2 * ((mainR.w : ℚ) * (b / trimW)) := by
    field_simp
    ring
  have ha : (0 : ℚ) ≤ (mainR.w : ℚ) * (b / trimW) := by positivity
  rw [hEq, jsRound_nat_add _ _ (by linarith)]
  have := jsRound_mono (show (mainR.w : ℚ) * (b / trimW) ≤
    2 * ((mainR.w : ℚ) * (b / trimW)) by linarith)
  omega

/-- The trim placement fits inside the composited raster vertically. -/
theorem compOffY_add_le (mainR : Raster) (trimH b : ℚ) (hth : 0 < trimH)
    (hb : 0 ≤ b) : compOffY mainR trimH b + mainR.h ≤ compH mainR trimH b := by
  unfold compOffY compH
  have hEq : (mainR.h : ℚ) * (trimH + 2 * b) / trimH =
      (mainR.h : ℚ) + 2 * ((mainR.h : ℚ) * (b / trimH)) := by
    field_simp
    ring
  have ha : (0 : ℚ) ≤ (mainR.h : ℚ) * (b / trimH) := by positivity
  rw [hEq, jsRound_nat_add _ _ (by linarith)]
  have := jsRound_mono (show (mainR.h : ℚ) * (b / trimH) ≤
    2 * ((mainR.h : ℚ) * (b / trimH)) by linarith)
  omega

/-- C6: with positive bleed the composite raster has the proportional
bleed-inclusive size; every opaque trim pixel lands on top at the
offset (mainRasterWidth * b / trimWidth, mainRasterHeight * b /
trimHeight) rounded, derived from physical bleed over physical trim
size rather than a fixed pixel margin; and when the bleed buffer was
never drawn into (all its pixels blank) every output pixel outside
the trim placement, in particular the whole bleed zone, keeps the
blank initialization value, never the trim content scaled up. -/
theorem bleed_composite_claim : ∀ (mainR bleedR : Raster) (trimW trimH b : ℚ),
    0 < trimW → 0 < trimH → 0 < b →
    ((compositePage mainR bleedR trimW trimH b).w = compW mainR trimW b ∧
     (compositePage mainR bleedR trimW trimH b).h = compH mainR trimH b) ∧
    (∀ x y c, mainR.px x y = some c → x < mainR.w → y < mainR.h →
      (compositePage mainR bleedR trimW trimH b).px
        (compOffX mainR trimW b + x) (compOffY mainR trimH b + y) = some c) ∧
    ((∀ x y, bleedR.px x y = none) → ∀ x y,
      (x < compOffX mainR trimW b ∨ compOffX mainR trimW b + mainR.w ≤ x ∨
       y < compOffY mainR trimH b ∨ compOffY mainR trimH b + mainR.h ≤ y) →
      (compositePage mainR bleedR trimW trimH b).px x y = none) := by
  intro mainR bleedR trimW trimH b htw hth hb
  refine ⟨⟨rfl, rfl⟩, ?_, ?_⟩
  · intro x y c hpx hx hy
    have hxW := compOffX_add_le mainR trimW b htw (le_of_lt hb)
    have hyH := compOffY_add_le mainR trimH b hth (le_of_lt hb)
    show (if _ ∧ _ then _ else none) = some c
    rw [if_pos ⟨by omega, by omega⟩]
    have hin : compOffX mainR trimW b ≤ compOffX mainR trimW b + x ∧
        compOffX mainR trimW b + x < compOffX mainR trimW b + mainR.w ∧
        compOffY mainR trimH b ≤ compOffY mainR trimH b + y ∧
        compOffY mainR trimH b + y < compOffY mainR trimH b + mainR.h :=
      ⟨by omega, by omega, by omega, by omega⟩
    rw [if_pos hin]
    have hxc : compOffX mainR trimW b + x - compOffX mainR trimW b = x := by omega
    have hyc : compOffY mainR trimH b + y - compOffY mainR trimH b = y := by omega
    rw [hxc, hyc, hpx]
  · intro hblank x y hout
    show (if _ ∧ _ then _ else none) = none
    by_cases hbound : x < compW mainR trimW b ∧ y < compH mainR trimH b
    · rw [if_pos hbound]
      have hnotin : ¬(compOffX mainR trimW b ≤ x ∧ x < compOffX mainR trimW b + mainR.w ∧
          compOffY mainR trimH b ≤ y ∧ y < compOffY mainR trimH b + mainR.h) := by
        intro hcon
        omega
      rw [if_neg hnotin]
      simp [scaleSample, hblank]
    · rw [if_neg hbound]

/-- A concrete 2 by 2 opaque trim raster for the C6 witness. -/
def mainEx : Raster :=
  ⟨2, 2, fun x y => if x < 2 ∧ y < 2 then some 7 else none⟩

/-- A bleed buffer that was never drawn into: every pixel blank. -/
def blankEx : Raster := ⟨2, 2, fun _ _ => none⟩

/-- Witness for C6: on a 4 by 4 trim page with bleed 1 the offset is
1 pixel, the opaque trim pixel lands at (1, 1), and with a blank bleed
buffer the bleed-zone corner pixel (0, 0) stays blank. -/
theorem bleed_composite_claim_witness :
    (compositePage mainEx blankEx 4 4 1).px (compOffX mainEx 4 1 + 0)
      (compOffY mainEx 4 1 + 0) = some 7 ∧
    (compositePage mainEx blankEx 4 4 1).px 0 0 = none :=
  ⟨((bleed_composite_claim mainEx blankEx 4 4 1 (by norm_num) (by norm_num)
      (by norm_num)).2.1) 0 0 7 (by norm_num [mainEx]) (by norm_num [mainEx])
      (by norm_num [mainEx]),
   ((bleed_composite_claim mainEx blankEx 4 4 1 (by norm_num) (by norm_num)
      (by norm_num)).2.2) (fun _ _ => rfl) 0 0
      (Or.inl (by norm_num [compOffX, mainEx, jsRound]))⟩

/-! ### Supporting lemmas for the text flow engine: splitting and
joining -/

/-- Neither the open group nor any closed group of splitAux contains
the separator. -/
theorem splitAux_not_sep (sep : Char) : ∀ s : List Char,
    sep ∉ (splitAux sep s).1 ∧ ∀ l ∈ (splitAux sep s).2, sep ∉ l := by
  intro s
  induction s with
  | nil => simp [splitAux]
  | cons c rest ih =>
    by_cases hc : c = sep
    · subst hc
      simp only [splitAux, if_pos rfl]
      exact ⟨by simp, by
        intro l hl
        rcases List.mem_cons.mp hl with rfl | hl
        · exact ih.1
        · exact ih.2 l hl⟩
    · simp only [splitAux, if_neg hc]
      exact ⟨by
        intro hmem
        rcases List.mem_cons.mp hmem with rfl | hmem
        · exact hc rfl
        · exact ih.1 hmem, ih.2⟩

/-- No group produced by splitting contains the separator. -/
theorem mem_splitOnChar_not_sep {sep : Char} {s l : List Char}
    (h : l ∈ splitOnChar sep s) : sep ∉ l := by
  rcases List.mem_cons.mp h with rfl | h
  · exact (splitAux_not_sep sep s).1
  · exact (splitAux_not_sep sep s).2 l h

/-- Every character of every group comes from the split string. -/
theorem splitAux_subset (sep : Char) : ∀ s : List Char,
    (∀ c ∈ (splitAux sep s).1, c ∈ s) ∧
    ∀ l ∈ (splitAux sep s).2, ∀ c ∈ l, c ∈ s := by
  intro s
  induction s with
  | nil => simp [splitAux]
  | cons d rest ih =>
    by_cases hc : d = sep
    · subst hc
      simp only [splitAux, if_pos rfl]
      refine ⟨by simp, ?_⟩
      intro l hl c hcl
      rcases List.mem_cons.mp hl with rfl | hl
      · exact List.mem_cons_of_mem _ (ih.1 c hcl)
      · exact List.mem_cons_of_mem _ (ih.2 l hl c hcl)
    · simp only [splitAux, if_neg hc]
      refine ⟨?_, ?_⟩
      · intro c hcl
        rcases List.mem_cons.mp hcl with rfl | hcl
        · exact List.mem_cons_self _ _
        · exact List.mem_cons_of_mem _ (ih.1 c hcl)
      · intro l hl c hcl
        exact List.mem_cons_of_mem _ (ih.2 l hl c hcl)

/-- Every character of every split group comes from the split string. -/
theorem mem_splitOnChar_subset {sep : Char} {s l : List Char}
    (h : l ∈ splitOnChar sep s) : ∀ c ∈ l, c ∈ s := by
  rcases List.mem_cons.mp h with rfl | h
  · exact (splitAux_subset sep s).1
  · exact (splitAux_subset sep s).2 l h

/-- Splitting a separator-free string yields the single group. -/
theorem splitAux_of_not_mem {sep : Char} : ∀ {s : List Char}, sep ∉ s →
    splitAux sep s = (s, []) := by
  intro s
  induction s with
  | nil => intro _; rfl
  | cons c rest ih =>
    intro h
    have hc : c ≠ sep := fun hcon => h (hcon ▸ List.mem_cons_self _ _)
    have hrest : sep ∉ rest := fun hcon => h (List.mem_cons_of_mem _ hcon)
    simp only [splitAux, if_neg hc, ih hrest]

/-- splitOnChar on a separator-free string. -/
theorem splitOnChar_of_not_mem {sep : Char} {s : List Char} (h : sep ∉ s) :
    splitOnChar sep s = [s] := by
  simp [splitOnChar, splitAux_of_not_mem h]

/-- Unfolding equation of splitAux on a cons cell. -/
theorem splitAux_cons (sep c : Char) (s : List Char) :
    splitAux sep (c :: s) =
      if c = sep then ([], (splitAux sep s).1 :: (splitAux sep s).2)
      else (c :: (splitAux sep s).1, (splitAux sep s).2) := rfl

/-- Splitting a string with an explicit separator in the middle. -/
theorem splitAux_append (sep : Char) : ∀ (a b : List Char),
    splitAux sep (a ++ sep :: b) =
      ((splitAux sep a).1, (splitAux sep a).2 ++ splitOnChar sep b) := by
  intro a b
  induction a with
  | nil =>
    rw [List.nil_append, splitAux_cons, if_pos rfl]
    rfl
  | cons c rest ih =>
    rw [List.cons_append, splitAux_cons, splitAux_cons, ih]
    by_cases hc : c = sep
    · rw [if_pos hc, if_pos hc]
      simp
    · rw [if_neg hc, if_neg hc]

/-- splitOnChar distributes over a separator occurrence. -/
theorem splitOnChar_sep_append (sep : Char) (a b : List Char) :
    splitOnChar sep (a ++ sep :: b) = splitOnChar sep a ++ splitOnChar sep b := by
  simp [splitOnChar, splitAux_append sep a b]

/-- Splitting the join recovers the groups when they are nonnull as a
list and separator-free. -/
theorem splitOnChar_joinChar (sep : Char) : ∀ ls : List (List Char),
    ls ≠ [] → (∀ l ∈ ls, sep ∉ l) →
    splitOnChar sep (joinChar sep ls) = ls := by
  intro ls
  induction ls with
  | nil => intro h _; exact absurd rfl h
  | cons l ls ih =>
    intro _ hsep
    cases ls with
    | nil =>
      simp only [joinChar]
      exact splitOnChar_of_not_mem (hsep l (List.mem_cons_self _ _))
    | cons l2 ls2 =>
      simp only [joinChar]
      rw [splitOnChar_sep_append,
        splitOnChar_of_not_mem (hsep l (List.mem_cons_self _ _)),
        ih (by simp) (fun x hx => hsep x (List.mem_cons_of_mem _ hx))]
      rfl

/-- The join of nonempty groups is nonempty. -/
theorem joinChar_ne_nil {sep : Char} : ∀ {ls : List (List Char)},
    ls ≠ [] → (∀ l ∈ ls, l ≠ []) → joinChar sep ls ≠ [] := by
  intro ls h1 h2
  cases ls with
  | nil => exact absurd rfl h1
  | cons l ls =>
    cases ls with
    | nil => exact h2 l (List.mem_cons_self _ _)
    | cons l2 ls2 =>
      simp only [joinChar]
      intro hcon
      rcases List.append_eq_nil.mp hcon with ⟨_, h⟩
      exact List.cons_ne_nil _ _ h

/-- Joining after appending one more group. -/
theorem joinChar_append_single (sep : Char) : ∀ (us : List (List Char))
    (w : List Char), us ≠ [] →
    joinChar sep (us ++ [w]) = joinChar sep us ++ sep :: w := by
  intro us w
  induction us with
  | nil => intro h; exact absurd rfl h
  | cons u us ih =>
    intro _
    cases us with
    | nil => simp [joinChar]
    | cons u2 us2 =>
      show u ++ sep :: joinChar sep ((u2 :: us2) ++ [w]) =
        (u ++ sep :: joinChar sep (u2 :: us2)) ++ sep :: w
      rw [ih (by simp)]
      simp

/-- Every character of a join is the separator or comes from a group. -/
theorem mem_joinChar {sep : Char} : ∀ {ls : List (List Char)} {c : Char},
    c ∈ joinChar sep ls → c = sep ∨ ∃ l ∈ ls, c ∈ l := by
  intro ls
  induction ls with
  | nil => intro c h; simp [joinChar] at h
  | cons l ls ih =>
    intro c h
    cases ls with
    | nil =>
      simp only [joinChar] at h
      exact Or.inr ⟨l, List.mem_cons_self _ _, h⟩
    | cons l2 ls2 =>
      simp only [joinChar] at h
      rcases List.mem_append.mp h with h | h
      · exact Or.inr ⟨l, List.mem_cons_self _ _, h⟩
      · rcases List.mem_cons.mp h with rfl | h
        · exact Or.inl rfl
        · rcases ih h with h | ⟨g, hg, hcg⟩
          · exact Or.inl h
          · exact Or.inr ⟨g, List.mem_cons_of_mem _ hg, hcg⟩

/-! ### Supporting lemmas for the text flow engine: the shape of
wrapped lines -/

/-- A valid word list: nonempty, with every word nonempty and
space-free. -/
def GoodWords (ws : List (List Char)) : Prop :=
  ws ≠ [] ∧ ∀ w ∈ ws, w ≠ [] ∧ ' ' ∉ w

/-- Every multi-word initial segment of the word list measures within
the column width. This is the invariant the greedy wrapper guarantees
for each committed line. -/
def FitsUpTo (m : List Char → ℚ) (maxW : ℚ) (ws : List (List Char)) : Prop :=
  ∀ j, 2 ≤ j → j ≤ ws.length → m (joinChar ' ' (ws.take j)) ≤ maxW

/-- A line the wrapper can emit: the space-join of a valid word list
all of whose multi-word initial segments fit. -/
def GoodLine (m : List Char → ℚ) (maxW : ℚ) (l : List Char) : Prop :=
  ∃ ws, GoodWords ws ∧ FitsUpTo m maxW ws ∧ l = joinChar ' ' ws

/-- A good line is nonempty. -/
theorem GoodLine.ne_nil {m : List Char → ℚ} {maxW : ℚ} {l : List Char}
    (h : GoodLine m maxW l) : l ≠ [] := by
  obtain ⟨ws, hgw, _, rfl⟩ := h
  exact joinChar_ne_nil hgw.1 (fun w hw => (hgw.2 w hw).1)

/-- Every line emitted by the word loop is a good line, provided the
incoming words are valid and the running line is empty or good. -/
theorem wrapWords_good {m : List Char → ℚ} {maxW : ℚ} :
    ∀ (ws : List (List Char)) (line : List Char),
    (∀ w ∈ ws, w ≠ [] ∧ ' ' ∉ w) →
    (line = [] ∨ GoodLine m maxW line) →
    ∀ l ∈ wrapWords m maxW ws line, GoodLine m maxW l := by
  intro ws
  induction ws with
  | nil =>
    intro line _ hline l hl
    rcases hline with rfl | hgood
    · simp [wrapWords] at hl
    · rw [wrapWords, if_neg hgood.ne_nil] at hl
      rcases List.mem_singleton.mp hl with rfl
      exact hgood
  | cons w ws ih =>
    intro line hws hline l hl
    have hw := hws w (List.mem_cons_self _ _)
    have hws2 : ∀ v ∈ ws, v ≠ [] ∧ ' ' ∉ v :=
      fun v hv => hws v (List.mem_cons_of_mem _ hv)
    have hwordGood : GoodLine m maxW w := by
      refine ⟨[w], ⟨by simp, by simpa using hw⟩, ?_, by simp [joinChar]⟩
      intro j hj2 hj1
      simp at hj1
      omega
    rcases hline with rfl | hgood
    · rw [wrapWords, if_neg (by simp)] at hl
      rw [show candidate [] w = w from by simp [candidate]] at hl
      exact ih w hws2 (Or.inr hwordGood) l hl
    · obtain ⟨us, hgw, hfit, hjoin⟩ := hgood
      have hlinene : line ≠ [] := GoodLine.ne_nil ⟨us, hgw, hfit, hjoin⟩
      have hcand : candidate line w = joinChar ' ' (us ++ [w]) := by
        rw [candidate, if_neg hlinene, hjoin, joinChar_append_single _ _ _ hgw.1]
      rw [wrapWords] at hl
      by_cases hcommit : line ≠ [] ∧ maxW < m (candidate line w)
      · rw [if_pos hcommit] at hl
        rcases List.mem_cons.mp hl with rfl | hl
        · exact ⟨us, hgw, hfit, hjoin⟩
        · exact ih w hws2 (Or.inr hwordGood) l hl
      · rw [if_neg hcommit] at hl
        have hfitcand : m (candidate line w) ≤ maxW := by
          rcases not_and_or.mp hcommit with h | h
          · exact absurd hlinene h
          · linarith [not_lt.mp h]
        have hcandGood : GoodLine m maxW (candidate line w) := by
          refine ⟨us ++ [w], ⟨by simp, ?_⟩, ?_, hcand⟩
          · intro v hv
            rcases List.mem_append.mp hv with hv | hv
            · exact hgw.2 v hv
            · rcases List.mem_singleton.mp hv with rfl
              exact hw
          · intro j hj2 hj1
            simp only [List.length_append, List.length_singleton] at hj1
            rcases lt_or_eq_of_le hj1 with hlt | heq
            · have hle : j ≤ us.length := by omega
              rw [List.take_append_of_le_length hle]
              exact hfit j hj2 hle
            · rw [heq, List.take_of_length_le (by simp), ← hcand]
              exact hfitcand
        exact ih (candidate line w) hws2 (Or.inr hcandGood) l hl

/-- Re-running the word loop over the tail of a good word list, with
the join of the processed head as the running line, emits exactly the
full join: the fitting invariant means no further commit happens. -/
theorem wrapWords_stable {m : List Char → ℚ} {maxW : ℚ} :
    ∀ (suf us : List (List Char)), GoodWords us →
    (∀ w ∈ suf, w ≠ [] ∧ ' ' ∉ w) →
    FitsUpTo m maxW (us ++ suf) →
    wrapWords m maxW suf (joinChar ' ' us) = [joinChar ' ' (us ++ suf)] := by
  intro suf
  induction suf with
  | nil =>
    intro us hgw _ _
    rw [wrapWords,
      if_neg (joinChar_ne_nil hgw.1 (fun w hw => (hgw.2 w hw).1)), List.append_nil]
  | cons w suf ih =>
    intro us hgw hsuf hfit
    have hlinene : joinChar ' ' us ≠ [] :=
      joinChar_ne_nil hgw.1 (fun v hv => (hgw.2 v hv).1)
    have hcand : candidate (joinChar ' ' us) w = joinChar ' ' (us ++ [w]) := by
      rw [candidate, if_neg hlinene, joinChar_append_single _ _ _ hgw.1]
    have huslen : 1 ≤ us.length := by
      cases us with
      | nil => exact absurd rfl hgw.1
      | cons u us2 => simp
    have htake : (us ++ w :: suf).take (us.length + 1) = us ++ [w] := by
      rw [show us ++ w :: suf = (us ++ [w]) ++ suf from by simp,
        List.take_append_of_le_length (by simp)]
      rw [List.take_of_length_le (by simp)]
    have hfitcand : m (candidate (joinChar ' ' us) w) ≤ maxW := by
      rw [hcand]
      have hstep := hfit (us.length + 1) (by omega)
        (by simp only [List.length_append, List.length_cons]; omega)
      rw [htake] at hstep
      exact hstep
    have hmem2 : ∀ v ∈ us ++ [w], v ≠ [] ∧ ' ' ∉ v := by
      intro v hv
      rcases List.mem_append.mp hv with hv | hv
      · exact hgw.2 v hv
      · rcases List.mem_singleton.mp hv with rfl
        exact hsuf _ (List.mem_cons_self _ _)
    have hfit2 : FitsUpTo m maxW ((us ++ [w]) ++ suf) := by
      rw [show (us ++ [w]) ++ suf = us ++ w :: suf from by simp]
      exact hfit
    rw [wrapWords, if_neg (by
      intro hcon
      linarith [hcon.2, hfitcand]), hcand]
    rw [ih (us ++ [w]) ⟨by simp, hmem2⟩
      (fun v hv => hsuf v (List.mem_cons_of_mem _ hv)) hfit2]
    simp

/-! ### Supporting lemmas for the text flow engine: re-wrap stability -/

/-- Splitting the space-join of a good word list recovers the words. -/
theorem wordsOf_joinChar {us : List (List Char)} (hgw : GoodWords us) :
    wordsOf (joinChar ' ' us) = us := by
  rw [wordsOf, splitOnChar_joinChar ' ' us hgw.1 (fun w hw => (hgw.2 w hw).2)]
  rw [List.filter_eq_self]
  intro w hw
  simpa using (hgw.2 w hw).1

/-- Re-wrapping a good line reproduces it exactly. -/
theorem wrapPara_of_goodLine {m : List Char → ℚ} {maxW : ℚ} {l : List Char}
    (h : GoodLine m maxW l) : wrapPara m maxW l = [l] := by
  obtain ⟨us, hgw, hfit, rfl⟩ := h
  rw [wrapPara, wordsOf_joinChar hgw]
  cases us with
  | nil => exact absurd rfl hgw.1
  | cons u us2 =>
    rw [wrapWords, if_neg (by simp),
      show candidate [] u = u from by simp [candidate]]
    have hu := hgw.2 u (List.mem_cons_self _ _)
    have hstep := wrapWords_stable us2 [u]
      ⟨by simp, by simpa using hu⟩
      (fun v hv => hgw.2 v (List.mem_cons_of_mem _ hv))
      (by simpa using hfit)
    rw [show joinChar ' ' [u] = u from rfl] at hstep
    rw [hstep]
    simp

/-- Characters of emitted lines come from the words, the running line,
or are spaces. -/
theorem wrapWords_chars {m : List Char → ℚ} {maxW : ℚ} (P : Char → Prop) :
    ∀ (ws : List (List Char)) (line : List Char),
    (∀ w ∈ ws, ∀ c ∈ w, P c) → (∀ c ∈ line, P c) → P ' ' →
    ∀ l ∈ wrapWords m maxW ws line, ∀ c ∈ l, P c := by
  intro ws
  induction ws with
  | nil =>
    intro line _ hline _ l hl
    by_cases h : line = []
    · rw [wrapWords, if_pos h] at hl
      simp at hl
    · rw [wrapWords, if_neg h] at hl
      rcases List.mem_singleton.mp hl with rfl
      exact hline
  | cons w ws ih =>
    intro line hws hline hsp l hl
    have hcand : ∀ c ∈ candidate line w, P c := by
      intro c hc
      rw [candidate] at hc
      by_cases h : line = []
      · rw [if_pos h] at hc
        exact hws w (List.mem_cons_self _ _) c hc
      · rw [if_neg h] at hc
        rcases List.mem_append.mp hc with hc | hc
        · exact hline c hc
        · rcases List.mem_cons.mp hc with rfl | hc
          · exact hsp
          · exact hws w (List.mem_cons_self _ _) c hc
    have hws2 : ∀ v ∈ ws, ∀ c ∈ v, P c :=
      fun v hv => hws v (List.mem_cons_of_mem _ hv)
    rw [wrapWords] at hl
    by_cases hcommit : line ≠ [] ∧ maxW < m (candidate line w)
    · rw [if_pos hcommit] at hl
      rcases List.mem_cons.mp hl with rfl | hl
      · exact hline
      · exact ih w hws2 (hws w (List.mem_cons_self _ _)) hsp l hl
    · rw [if_neg hcommit] at hl
      exact ih (candidate line w) hws2 hcand hsp l hl

/-- Every member of the paragraph loop output comes from some
paragraph. -/
theorem mem_wrapParas {m : List Char → ℚ} {maxW : ℚ} :
    ∀ {ps : List (List Char)} {l : List Char}, l ∈ wrapParas m maxW ps →
    ∃ p ∈ ps, (p = [] ∧ l = []) ∨ (p ≠ [] ∧ l ∈ wrapPara m maxW p) := by
  intro ps
  induction ps with
  | nil => intro l hl; simp [wrapParas] at hl
  | cons p ps ih =>
    intro l hl
    rw [wrapParas] at hl
    rcases List.mem_append.mp hl with hl | hl
    · by_cases hp : p = []
      · rw [if_pos hp] at hl
        rcases List.mem_singleton.mp hl with rfl
        exact ⟨p, List.mem_cons_self _ _, Or.inl ⟨hp, rfl⟩⟩
      · rw [if_neg hp] at hl
        exact ⟨p, List.mem_cons_self _ _, Or.inr ⟨hp, hl⟩⟩
    · obtain ⟨q, hq, hcase⟩ := ih hl
      exact ⟨q, List.mem_cons_of_mem _ hq, hcase⟩

/-- Every output line of the wrapper is the empty line or a good line,
and contains no hard line break. -/
theorem wrapText_mem {m : List Char → ℚ} {maxW : ℚ} {s l : List Char}
    (h : l ∈ wrapText m maxW s) :
    (l = [] ∨ GoodLine m maxW l) ∧ '\n' ∉ l := by
  rw [wrapText] at h
  obtain ⟨p, hp, hcase⟩ := mem_wrapParas h
  have hpn : '\n' ∉ p := mem_splitOnChar_not_sep hp
  rcases hcase with ⟨_, rfl⟩ | ⟨hpne, hl⟩
  · exact ⟨Or.inl rfl, by simp⟩
  · have hwords : ∀ w ∈ wordsOf p, w ≠ [] ∧ ' ' ∉ w := by
      intro w hw
      rw [wordsOf] at hw
      have hmem := List.mem_of_mem_filter hw
      refine ⟨?_, mem_splitOnChar_not_sep hmem⟩
      have := List.of_mem_filter hw
      simpa using this
    have hgood := wrapWords_good (wordsOf p) [] hwords (Or.inl rfl) l hl
    refine ⟨Or.inr hgood, ?_⟩
    have hchars := wrapWords_chars (fun c => c ≠ '\n') (wordsOf p) []
      (fun w hw c hc => by
        have : c ∈ p := mem_splitOnChar_subset
          (List.mem_of_mem_filter (by rw [wordsOf] at hw; exact hw)) c hc
        intro hcon
        exact hpn (hcon ▸ this))
      (by simp) (by simp) l hl
    intro hcon
    exact hchars '\n' hcon rfl

/-- The paragraph loop reproduces a list of stable lines. -/
theorem wrapParas_self {m : List Char → ℚ} {maxW : ℚ} :
    ∀ {ls : List (List Char)},
    (∀ l ∈ ls, l = [] ∨ wrapPara m maxW l = [l]) →
    wrapParas m maxW ls = ls := by
  intro ls
  induction ls with
  | nil => intro _; rfl
  | cons l ls ih =>
    intro h
    rw [wrapParas]
    rcases h l (List.mem_cons_self _ _) with rfl | hst
    · rw [if_pos rfl, ih (fun x hx => h x (List.mem_cons_of_mem _ hx))]
      rfl
    · by_cases hl : l = []
      · rw [if_pos hl, hl, ih (fun x hx => h x (List.mem_cons_of_mem _ hx))]
        rfl
      · rw [if_neg hl, hst, ih (fun x hx => h x (List.mem_cons_of_mem _ hx))]
        rfl

/-- Feeding any nonempty selection of wrapper output lines, joined by
hard line breaks, back through the wrapper reproduces exactly those
lines. -/
theorem wrapText_rejoin {m : List Char → ℚ} {maxW : ℚ} {s : List Char} :
    ∀ {rem : List (List Char)}, (∀ l ∈ rem, l ∈ wrapText m maxW s) →
    rem ≠ [] → wrapText m maxW (joinChar '\n' rem) = rem := by
  intro rem hmem hne
  have hprops : ∀ l ∈ rem, (l = [] ∨ GoodLine m maxW l) ∧ '\n' ∉ l :=
    fun l hl => wrapText_mem (hmem l hl)
  rw [wrapText, splitOnChar_joinChar '\n' rem hne (fun l hl => (hprops l hl).2)]
  refine wrapParas_self ?_
  intro l hl
  rcases (hprops l hl).1 with rfl | hgood
  · exact Or.inl rfl
  · exact Or.inr (wrapPara_of_goodLine hgood)

/-! ### Supporting lemmas for the text flow engine: column capacity -/

/-- The inner loop advances the index to the minimum of the total and
index plus rows. -/
theorem innerCount_eq (total : Nat) : ∀ (r idx : Nat), idx ≤ total →
    innerCount total idx r = min total (idx + r) := by
  intro r
  induction r with
  | zero => intro idx h; simp [innerCount]; omega
  | succ r ih =>
    intro idx h
    rw [innerCount]
    by_cases hlt : idx < total
    · rw [if_pos hlt, ih (idx + 1) (by omega)]
      omega
    · rw [if_neg hlt]
      omega

/-- The outer loop places the minimum of the total and columns times
rows. -/
theorem outerCount_eq (total rows : Nat) : ∀ (c idx : Nat), idx ≤ total →
    outerCount total rows idx c = min total (idx + c * rows) := by
  intro c
  induction c with
  | zero => intro idx h; simp [outerCount]; omega
  | succ c ih =>
    intro idx h
    rw [outerCount]
    by_cases hlt : idx < total
    · rw [if_pos hlt, innerCount_eq total rows idx (by omega),
        ih (min total (idx + rows)) (by omega)]
      have : (c + 1) * rows = rows + c * rows := by ring
      omega
    · rw [if_neg hlt]
      have : (c + 1) * rows = rows + c * rows := by ring
      omega

/-- maxLines is always at least 1. -/
theorem maxLinesFor_pos (h ascent leading : ℚ) :
    1 ≤ maxLinesFor h ascent leading := by
  rw [maxLinesFor]
  have h1 : (1 : ℤ) ≤ (⌊(h - ascent) / leading⌋ + 1) ⊔ 1 := le_max_right _ _
  omega

/-- Characterization of textBox on nonempty input: it places the first
min(lines, columns times maxLines) wrapped lines and joins the rest as
overflow. -/
theorem textBoxModel_eq (m : List Char → ℚ) (s : List Char) (w h : ℚ)
    (cols : Nat) (gutter ascent leading : ℚ) (hs : s ≠ []) :
    textBoxModel m s w h cols gutter ascent leading =
      ((wrapText m (colWidth w gutter cols) s).take
        (min (wrapText m (colWidth w gutter cols) s).length
          (cols * maxLinesFor h ascent leading)),
       joinChar '\n' ((wrapText m (colWidth w gutter cols) s).drop
        (min (wrapText m (colWidth w gutter cols) s).length
          (cols * maxLinesFor h ascent leading)))) := by
  rw [textBoxModel, if_neg hs]
  show ((wrapText m (colWidth w gutter cols) s).take
      (outerCount (wrapText m (colWidth w gutter cols) s).length
        (maxLinesFor h ascent leading) 0 cols),
    joinChar '\n' ((wrapText m (colWidth w gutter cols) s).drop
      (outerCount (wrapText m (colWidth w gutter cols) s).length
        (maxLinesFor h ascent leading) 0 cols))) = _
  rw [outerCount_eq _ _ cols 0 (Nat.zero_le _), Nat.zero_add]

/-- The overflow join of a remainder that is neither empty nor the
single empty line is a nonempty string. -/
theorem joinChar_overflow_ne_nil {rem : List (List Char)}
    (h1 : rem ≠ []) (h2 : rem ≠ [[]]) : joinChar '\n' rem ≠ [] := by
  cases rem with
  | nil => exact absurd rfl h1
  | cons l ls =>
    cases ls with
    | nil =>
      rw [joinChar]
      intro hcon
      exact h2 (by rw [hcon])
    | cons l2 ls2 =>
      rw [joinChar]
      intro hcon
      rcases List.append_eq_nil.mp hcon with ⟨_, hfalse⟩
      exact List.cons_ne_nil _ _ hfalse

/-! ### The text flow continuation claims -/

/-- Unfolding equation: zero rounds do nothing. -/
theorem flowIter_zero (m : List Char → ℚ) (w h : ℚ) (cols : Nat)
    (gutter ascent leading : ℚ) (s : List Char) :
    flowIter m w h cols gutter ascent leading 0 s = ([], s) := rfl

/-- Unfolding equation: one round is a textBox call followed by the
remaining rounds on its overflow. -/
theorem flowIter_succ (m : List Char → ℚ) (w h : ℚ) (cols : Nat)
    (gutter ascent leading : ℚ) (k : Nat) (s : List Char) :
    flowIter m w h cols gutter ascent leading (k + 1) s =
      ((textBoxModel m s w h cols gutter ascent leading).1 ++
        (flowIter m w h cols gutter ascent leading k
          (textBoxModel m s w h cols gutter ascent leading).2).1,
       (flowIter m w h cols gutter ascent leading k
         (textBoxModel m s w h cols gutter ascent leading).2).2) := rfl

/-- Iterating on an empty string never places anything. -/
theorem flowIter_nil (m : List Char → ℚ) (w h : ℚ) (cols : Nat)
    (gutter ascent leading : ℚ) : ∀ k : Nat,
    flowIter m w h cols gutter ascent leading k [] = ([], []) := by
  intro k
  induction k with
  | zero => rfl
  | succ k ih =>
    rw [flowIter_succ,
      show textBoxModel m [] w h cols gutter ascent leading = ([], []) from rfl,
      ih]
    rfl

/-- C5 amended: repeatedly feeding the overflow back into textBox with
the same box parameters always terminates with empty overflow after
finitely many calls, and the concatenation of the lines placed across
all calls equals the line sequence a single unbounded-height layout
would produce, except that one trailing empty line (arising from a
text that ends in a hard line break) can be dropped when it is the
sole remaining line of a call, because joining the single empty
remainder line produces the empty overflow string. -/
theorem text_flow_amended : ∀ (m : List Char → ℚ) (w h : ℚ) (cols : Nat)
    (gutter ascent leading : ℚ) (s : List Char), 1 ≤ cols →
    ∃ k, (flowIter m w h cols gutter ascent leading k s).2 = [] ∧
      ((flowIter m w h cols gutter ascent leading k s).1 =
          unboundedLines m (colWidth w gutter cols) s ∨
       (flowIter m w h cols gutter ascent leading k s).1 ++ [[]] =
          unboundedLines m (colWidth w gutter cols) s) := by
  intro m w h cols gutter ascent leading s hcols
  suffices H : ∀ (N : Nat) (t : List Char),
      (wrapText m (colWidth w gutter cols) t).length ≤ N →
      ∃ k, (flowIter m w h cols gutter ascent leading k t).2 = [] ∧
        ((flowIter m w h cols gutter ascent leading k t).1 =
            unboundedLines m (colWidth w gutter cols) t ∨
         (flowIter m w h cols gutter ascent leading k t).1 ++ [[]] =
            unboundedLines m (colWidth w gutter cols) t) by
    exact H (wrapText m (colWidth w gutter cols) s).length s le_rfl
  have hcap : 1 ≤ cols * maxLinesFor h ascent leading :=
    Nat.mul_pos hcols (maxLinesFor_pos h ascent leading)
  intro N
  induction N with
  | zero =>
    intro t hlen
    refine ⟨1, ?_⟩
    by_cases ht : t = []
    · subst ht
      rw [flowIter_succ, show textBoxModel m [] w h cols gutter ascent
          leading = ([], []) from rfl, flowIter_zero]
      exact ⟨rfl, Or.inl (by rw [unboundedLines, if_pos rfl]; rfl)⟩
    · have hL : wrapText m (colWidth w gutter cols) t = [] :=
        List.length_eq_zero.mp (Nat.le_zero.mp hlen)
      constructor <;>
        rw [flowIter_succ, textBoxModel_eq m t w h cols gutter ascent leading ht,
          flowIter_zero, hL]
      · simp [joinChar]
      · exact Or.inl (by simp [unboundedLines, ht, hL, joinChar])
  | succ N ih =>
    intro t hlen
    by_cases ht : t = []
    · subst ht
      refine ⟨1, ?_⟩
      rw [flowIter_succ, show textBoxModel m [] w h cols gutter ascent
          leading = ([], []) from rfl, flowIter_zero]
      exact ⟨rfl, Or.inl (by rw [unboundedLines, if_pos rfl]; rfl)⟩
    · have htb := textBoxModel_eq m t w h cols gutter ascent leading ht
      by_cases hd : (wrapText m (colWidth w gutter cols) t).drop
          (min (wrapText m (colWidth w gutter cols) t).length
            (cols * maxLinesFor h ascent leading)) = []
      · refine ⟨1, ?_⟩
        rw [flowIter_succ, htb, hd, flowIter_zero]
        have htake : (wrapText m (colWidth w gutter cols) t).take
            (min (wrapText m (colWidth w gutter cols) t).length
              (cols * maxLinesFor h ascent leading)) =
            wrapText m (colWidth w gutter cols) t :=
          List.take_of_length_le (List.drop_eq_nil_iff_le.mp hd)
        refine ⟨rfl, Or.inl ?_⟩
        rw [unboundedLines, if_neg ht]
        simpa using htake
      · by_cases hd1 : (wrapText m (colWidth w gutter cols) t).drop
            (min (wrapText m (colWidth w gutter cols) t).length
              (cols * maxLinesFor h ascent leading)) = [[]]
        · refine ⟨1, ?_⟩
          rw [flowIter_succ, htb, hd1, flowIter_zero]
          refine ⟨rfl, Or.inr ?_⟩
          rw [unboundedLines, if_neg ht]
          have := List.take_append_drop
            (min (wrapText m (colWidth w gutter cols) t).length
              (cols * maxLinesFor h ascent leading))
            (wrapText m (colWidth w gutter cols) t)
          rw [hd1] at this
          simpa using this
        · have hov := joinChar_overflow_ne_nil hd hd1
          have hrejoin := @wrapText_rejoin m (colWidth w gutter cols) t
            ((wrapText m (colWidth w gutter cols) t).drop
              (min (wrapText m (colWidth w gutter cols) t).length
                (cols * maxLinesFor h ascent leading)))
            (fun l hl => List.mem_of_mem_drop hl) hd
          have hLne : wrapText m (colWidth w gutter cols) t ≠ [] := by
            intro hcon
            exact hd (by rw [hcon]; simp)
          have hlen2 : (wrapText m (colWidth w gutter cols)
              (joinChar '\n' ((wrapText m (colWidth w gutter cols) t).drop
                (min (wrapText m (colWidth w gutter cols) t).length
                  (cols * maxLinesFor h ascent leading))))).length ≤ N := by
            rw [hrejoin, List.length_drop]
            have hplt : min (wrapText m (colWidth w gutter cols) t).length
                (cols * maxLinesFor h ascent leading) <
                (wrapText m (colWidth w gutter cols) t).length := by
              by_contra hcon
              exact hd (List.drop_eq_nil_iff_le.mpr (Nat.le_of_not_lt hcon))
            have hLpos : 1 ≤ (wrapText m (colWidth w gutter cols) t).length := by
              cases hL : wrapText m (colWidth w gutter cols) t with
              | nil => exact absurd hL hLne
              | cons a as => simp
            omega
          obtain ⟨k, hk2, hk1⟩ := ih (joinChar '\n'
            ((wrapText m (colWidth w gutter cols) t).drop
              (min (wrapText m (colWidth w gutter cols) t).length
                (cols * maxLinesFor h ascent leading)))) hlen2
          refine ⟨k + 1, ?_, ?_⟩
          · rw [flowIter_succ, htb]
            exact hk2
          · rw [flowIter_succ, htb]
            have hunb : unboundedLines m (colWidth w gutter cols)
                (joinChar '\n' ((wrapText m (colWidth w gutter cols) t).drop
                  (min (wrapText m (colWidth w gutter cols) t).length
                    (cols * maxLinesFor h ascent leading)))) =
                (wrapText m (colWidth w gutter cols) t).drop
                  (min (wrapText m (colWidth w gutter cols) t).length
                    (cols * maxLinesFor h ascent leading)) := by
              rw [unboundedLines, if_neg hov, hrejoin]
            rw [hunb] at hk1
            rw [unboundedLines, if_neg ht]
            rcases hk1 with h1 | h1
            · exact Or.inl (by rw [h1, List.take_append_drop])
            · exact Or.inr (by rw [List.append_assoc, h1, List.take_append_drop])

/-- Witness for the amended C5 on a concrete box. -/
theorem text_flow_amended_witness :
    ∃ k, (flowIter lenMeasure 5 100 1 0 10 10 k ("aa bb cc".toList)).2 = [] ∧
      ((flowIter lenMeasure 5 100 1 0 10 10 k ("aa bb cc".toList)).1 =
          unboundedLines lenMeasure (colWidth 5 0 1) ("aa bb cc".toList) ∨
       (flowIter lenMeasure 5 100 1 0 10 10 k ("aa bb cc".toList)).1 ++ [[]] =
          unboundedLines lenMeasure (colWidth 5 0 1) ("aa bb cc".toList)) :=
  text_flow_amended lenMeasure 5 100 1 0 10 10 ("aa bb cc".toList) (le_refl 1)

/-- C5 counterexample: the claim says the concatenation of the lines
placed across the refeeding calls always equals the line sequence of a
single unbounded layout. For the text consisting of the letter a
followed by a hard line break, wrapped lines are the line a and one
empty line; with capacity 1 per call, the first call places the line a
and joins the remaining single empty line into the empty overflow
string, so the iteration ends having placed only one line, while the
unbounded layout places both. No number of rounds ever reaches the
unbounded line sequence. -/
theorem text_flow_cex :
    ¬ ∃ k, (flowIter lenMeasure 10 0 1 0 0 1 k ['a', '\n']).2 = [] ∧
      (flowIter lenMeasure 10 0 1 0 0 1 k ['a', '\n']).1 =
        unboundedLines lenMeasure (colWidth 10 0 1) ['a', '\n'] := by
  rintro ⟨k, h2, h1⟩
  have hcw : colWidth 10 0 1 = 10 := by norm_num [colWidth]
  have hL : wrapText lenMeasure (colWidth 10 0 1) ['a', '\n'] =
      [['a'], []] := by rw [hcw]; rfl
  have hunb : unboundedLines lenMeasure (colWidth 10 0 1) ['a', '\n'] =
      [['a'], []] := by
    rw [unboundedLines, if_neg (by decide), hL]
  cases k with
  | zero =>
    rw [flowIter_zero] at h2
    exact List.cons_ne_nil _ _ h2
  | succ k =>
    have hml : maxLinesFor 0 0 1 = 1 := by
      rw [maxLinesFor]
      norm_num
    have htb : textBoxModel lenMeasure ['a', '\n'] 10 0 1 0 0 1 =
        ([['a']], []) := by
      rw [textBoxModel_eq lenMeasure ['a', '\n'] 10 0 1 0 0 1 (by decide),
        hL, hml]
      simp [joinChar]
    rw [flowIter_succ, htb, flowIter_nil, hunb] at h1
    simp at h1

/-! ### The greedy wrapping claim -/

/-- The paragraph loop distributes over appending paragraph lists. -/
theorem wrapParas_append {m : List Char → ℚ} {maxW : ℚ} :
    ∀ (xs ys : List (List Char)),
    wrapParas m maxW (xs ++ ys) = wrapParas m maxW xs ++ wrapParas m maxW ys := by
  intro xs ys
  induction xs with
  | nil => rfl
  | cons x xs ih =>
    show (if x = [] then [[]] else wrapPara m maxW x) ++ wrapParas m maxW (xs ++ ys) = _
    rw [ih, wrapParas, List.append_assoc]

/-- A word wider than the column, arriving as the running line, ends up
emitted unbroken as its own line. -/
theorem wrapWords_wide_start {m : List Char → ℚ} {maxW : ℚ} {word : List Char}
    (hne : word ≠ []) (hwide : maxW < m word)
    (hmono : ∀ a c : List Char, a ≠ [] → c ≠ [] →
      m a ≤ m (a ++ ' ' :: c) ∧ m c ≤ m (a ++ ' ' :: c)) :
    ∀ ws : List (List Char), (∀ v ∈ ws, v ≠ []) →
    word ∈ wrapWords m maxW ws word := by
  intro ws hws
  cases ws with
  | nil =>
    rw [wrapWords, if_neg hne]
    exact List.mem_singleton.mpr rfl
  | cons v ws2 =>
    have hv : v ≠ [] := hws v (List.mem_cons_self _ _)
    have hcand : candidate word v = word ++ ' ' :: v := by
      rw [candidate, if_neg hne]
    have : maxW < m (candidate word v) := by
      rw [hcand]
      linarith [(hmono word v hne hv).1]
    rw [wrapWords, if_pos ⟨hne, this⟩]
    exact List.mem_cons_self _ _

/-- A word of the paragraph wider than the column is emitted unbroken
as its own line, whatever the running line is. -/
theorem wrapWords_wide_mem {m : List Char → ℚ} {maxW : ℚ} {word : List Char}
    (hne : word ≠ []) (hwide : maxW < m word)
    (hmono : ∀ a c : List Char, a ≠ [] → c ≠ [] →
      m a ≤ m (a ++ ' ' :: c) ∧ m c ≤ m (a ++ ' ' :: c)) :
    ∀ (ws : List (List Char)) (line : List Char), (∀ v ∈ ws, v ≠ []) →
    word ∈ ws → word ∈ wrapWords m maxW ws line := by
  intro ws
  induction ws with
  | nil => intro line _ hmem; simp at hmem
  | cons v ws2 ih =>
    intro line hws hmem
    have hws2 : ∀ u ∈ ws2, u ≠ [] := fun u hu => hws u (List.mem_cons_of_mem _ hu)
    rcases List.mem_cons.mp hmem with rfl | hmem
    · by_cases hline : line = []
      · rw [wrapWords, if_neg (by simp [hline])]
        rw [show candidate line word = word from by rw [candidate, if_pos hline]]
        exact wrapWords_wide_start hne hwide hmono ws2 hws2
      · have hcand : candidate line word = line ++ ' ' :: word := by
          rw [candidate, if_neg hline]
        have hgt : maxW < m (candidate line word) := by
          rw [hcand]
          linarith [(hmono line word hline hne).2]
        rw [wrapWords, if_pos ⟨hline, hgt⟩]
        exact List.mem_cons_of_mem _ (wrapWords_wide_start hne hwide hmono ws2 hws2)
    · rw [wrapWords]
      by_cases hcommit : line ≠ [] ∧ maxW < m (candidate line v)
      · rw [if_pos hcommit]
        exact List.mem_cons_of_mem _ (ih v hws2 hmem)
      · rw [if_neg hcommit]
        exact ih (candidate line v) hws2 hmem

/-- The concrete two-words-per-line example: wrapping aa bb cc at width
5 under the per-character measure commits aa bb and then cc. -/
theorem wrapText_two_words :
    wrapText lenMeasure 5 ("aa bb cc".toList) =
      ["aa bb".toList, "cc".toList] := by
  have h1 : lenMeasure ("aa bb".toList) = 5 := by
    rw [lenMeasure, show ("aa bb".toList).length = 5 from by decide]
    norm_num
  have h2 : lenMeasure ("aa bb cc".toList) = 8 := by
    rw [lenMeasure, show ("aa bb cc".toList).length = 8 from by decide]
    norm_num
  rw [wrapText, splitOnChar_of_not_mem (by decide), wrapParas,
    if_neg (by decide), wrapParas, List.append_nil, wrapPara,
    show wordsOf ("aa bb cc".toList) =
      ["aa".toList, "bb".toList, "cc".toList] from by decide]
  rw [wrapWords, if_neg (by simp),
    show candidate [] ("aa".toList) = "aa".toList from rfl]
  rw [wrapWords, if_neg (by
    intro hcon
    rw [show candidate ("aa".toList) ("bb".toList) = "aa bb".toList from rfl,
      h1] at hcon
    exact absurd hcon.2 (by norm_num)),
    show candidate ("aa".toList) ("bb".toList) = "aa bb".toList from rfl]
  rw [wrapWords, if_pos ⟨by decide, by
    rw [show candidate ("aa bb".toList) ("cc".toList) =
      "aa bb cc".toList from rfl, h2]
    norm_num⟩]
  rw [wrapWords, if_neg (by decide)]

/-- C4: the greedy wrapper splits on hard line breaks with an empty
paragraph contributing exactly one blank output line; within a
paragraph each word joins the current line unless the candidate
measures wider than the column while the line is nonempty, in which
case the line is committed (this case split is the definition of
wrapWords, transcribed from the source loop); a single word wider
than the column is never split and is kept on its own line (for any
measurement that never shrinks when a word is appended); and wrapping
the text aa bb cc at width 5 under the per-character measure, which
fits exactly two words per line, places the lines aa bb and cc with
empty overflow. -/
theorem wrap_text_claim :
    (∀ (m : List Char → ℚ) (maxW : ℚ) (a b : List Char),
      wrapText m maxW (a ++ '\n' :: b) =
        wrapText m maxW a ++ wrapText m maxW b) ∧
    (∀ (m : List Char → ℚ) (maxW : ℚ), wrapText m maxW [] = [[]]) ∧
    (∀ (m : List Char → ℚ) (maxW : ℚ) (para word : List Char),
      '\n' ∉ para → word ∈ wordsOf para → maxW < m word →
      (∀ a c : List Char, a ≠ [] → c ≠ [] →
        m a ≤ m (a ++ ' ' :: c) ∧ m c ≤ m (a ++ ' ' :: c)) →
      word ∈ wrapText m maxW para) ∧
    (wrapText lenMeasure 5 ("aa bb cc".toList) =
      ["aa bb".toList, "cc".toList] ∧
     textBoxModel lenMeasure ("aa bb cc".toList) 5 100 1 0 10 10 =
      (["aa bb".toList, "cc".toList], [])) := by
  refine ⟨?_, ?_, ?_, ?_, ?_⟩
  · intro m maxW a b
    rw [wrapText, wrapText, wrapText, splitOnChar_sep_append, wrapParas_append]
  · intro m maxW
    rfl
  · intro m maxW para word hnl hw hwide hmono
    have hne : word ≠ [] := by
      rw [wordsOf] at hw
      have := List.of_mem_filter hw
      simpa using this
    have hpara : para ≠ [] := by
      intro hcon
      rw [hcon] at hw
      simp [wordsOf, splitOnChar, splitAux] at hw
    rw [wrapText, splitOnChar_of_not_mem hnl, wrapParas, if_neg hpara,
      wrapParas, List.append_nil, wrapPara]
    refine wrapWords_wide_mem hne hwide hmono (wordsOf para) [] ?_ hw
    intro v hv
    rw [wordsOf] at hv
    have := List.of_mem_filter hv
    simpa using this
  · exact wrapText_two_words
  · have hcw : colWidth 5 0 1 = 5 := by norm_num [colWidth]
    have hml : maxLinesFor 100 10 10 = 10 := by
      rw [maxLinesFor]
      norm_num
      rfl
    have hwrap : wrapText lenMeasure (colWidth 5 0 1) ("aa bb cc".toList) =
        ["aa bb".toList, "cc".toList] := by
      rw [hcw]
      exact wrapText_two_words
    rw [textBoxModel_eq lenMeasure ("aa bb cc".toList) 5 100 1 0 10 10
      (by decide), hwrap, hml]
    simp [joinChar]

/-- Witness for C4: the word www, wider than a column of width 2 under
the per-character measure, is kept unbroken on its own line when
wrapping the paragraph a www. -/
theorem wrap_text_claim_witness :
    "www".toList ∈ wrapText lenMeasure 2 ("a www".toList) :=
  wrap_text_claim.2.2.1 lenMeasure 2 ("a www".toList) ("www".toList)
    (by decide) (by decide)
    (by
      rw [lenMeasure, show ("www".toList).length = 3 from by decide]
      norm_num)
    (by
      intro a c _ _
      constructor
      · rw [lenMeasure, lenMeasure, List.length_append, List.length_cons]
        exact_mod_cast Nat.le_add_right a.length (c.length + 1)
      · rw [lenMeasure, lenMeasure, List.length_append, List.length_cons]
        exact_mod_cast (by omega : c.length ≤ a.length + (c.length + 1)))
